import Mathlib

set_option maxHeartbeats 1000000

/-!
Verification development for the oggvorbis-meta library: a model of the
comment block (vendor string plus ordered key=value tag list), the wire
codec for comment headers, the comment locator and the stream patcher,
translated from src/lib.rs.  Rust strings and byte buffers are modelled as
lists of byte values; a Rust panic (a failing unwrap) is modelled as
Option.none, since the Rust signatures carry no error type.
-/

/-- Rust strings and byte buffers, modelled as lists of byte values. -/
abbrev Str := List Nat

/-- Bytewise model of the Rust str::to_lowercase transformation (faithful on
ASCII, the identity elsewhere). -/
def to_lowercase_byte (b : Nat) : Nat := if 65 ≤ b ∧ b ≤ 90 then b + 32 else b

/-- Model of str::to_lowercase, applied bytewise. -/
def to_lowercase (s : Str) : Str := s.map to_lowercase_byte

/-- The comment header: vendor string plus ordered list of key value pairs
(the lewton CommentHeader type as used by src/lib.rs). -/
structure CommentHeader where
  vendor : Str
  comment_list : List (Str × Str)
  deriving DecidableEq

/-- Model of Vec::dedup: remove consecutive duplicate elements. -/
def dedup_adj : List Str → List Str
  | [] => []
  | [a] => [a]
  | a :: b :: t => if a = b then dedup_adj (b :: t) else a :: dedup_adj (b :: t)

namespace CommentHeader

/-- Model of VorbisComments::from for CommentHeader: direct construction,
the pair list is stored exactly as given. -/
def from' (vendor : Str) (comment_list : List (Str × Str)) : CommentHeader :=
  { vendor := vendor, comment_list := comment_list }

/-- Model of VorbisComments::new: empty vendor, empty tag list. -/
def new : CommentHeader := { vendor := [], comment_list := [] }

/-- Model of get_tag_names: lowercase every key, sort, remove consecutive
duplicates. -/
def get_tag_names (h : CommentHeader) : List Str :=
  dedup_adj (List.insertionSort (fun a b => a ≤ b)
    (h.comment_list.map (fun c => to_lowercase c.1)))

/-- Model of get_tag_multi: the values of all pairs whose key matches the
requested tag case insensitively, in insertion order. -/
def get_tag_multi (h : CommentHeader) (tag : Str) : List Str :=
  (h.comment_list.filter (fun c => to_lowercase c.1 == to_lowercase tag)).map
    (fun c => c.2)

/-- Model of get_tag_single: the first value for the tag, if any. -/
def get_tag_single (h : CommentHeader) (tag : Str) : Option Str :=
  match h.get_tag_multi tag with
  | [] => none
  | v :: _ => some v

/-- Model of clear_tag: retain only the pairs whose key does not match the
tag case insensitively. -/
def clear_tag (h : CommentHeader) (tag : Str) : CommentHeader :=
  { h with comment_list :=
      h.comment_list.filter (fun c => !(to_lowercase c.1 == to_lowercase tag)) }

/-- Model of add_tag_single: push one pair, the key lowercased. -/
def add_tag_single (h : CommentHeader) (tag : Str) (value : Str) : CommentHeader :=
  { h with comment_list := h.comment_list ++ [(to_lowercase tag, value)] }

/-- Model of add_tag_multi: push one pair per value, in the given order,
each key lowercased. -/
def add_tag_multi (h : CommentHeader) (tag : Str) (values : List Str) : CommentHeader :=
  { h with comment_list :=
      h.comment_list ++ values.map (fun v => (to_lowercase tag, v)) }

/-- Model of get_vendor. -/
def get_vendor (h : CommentHeader) : Str := h.vendor

/-- Model of set_vendor. -/
def set_vendor (h : CommentHeader) (vend : Str) : CommentHeader :=
  { h with vendor := vend }

end CommentHeader

/-- Decidable check that every stored key is already lowercase. -/
def all_keys_lowercase (h : CommentHeader) : Bool :=
  h.comment_list.all (fun c => to_lowercase c.1 == c.1)

/-- Model of the usize to u32 try_into conversion: succeeds exactly when the
value fits in 32 bits. -/
def u32_try_into (n : Nat) : Option Nat := if n < 4294967296 then some n else none

/-- Model of u32::to_le_bytes. -/
def u32_to_le_bytes (n : Nat) : List Nat :=
  [n % 256, n / 256 % 256, n / 65536 % 256, n / 16777216 % 256]

/-- The comment entry loop of make_comment_header: for each pair the bytes of
key=value, preceded by their count as a little endian u32.  Option.none
models the panic of a failing try_into unwrap on overflow. -/
def encode_comments : List (Str × Str) → Option (List Nat)
  | [] => some []
  | c :: rest =>
    match u32_try_into (c.1 ++ [61] ++ c.2).length, encode_comments rest with
    | some len, some tail => some (u32_to_le_bytes len ++ (c.1 ++ [61] ++ c.2) ++ tail)
    | _, _ => none

/-- Model of make_comment_header: signature bytes, vendor length and bytes,
comment count, the encoded entries, and the end byte 1.  Option.none models
the panic of a failing try_into unwrap when a length or count does not fit
in a u32. -/
def make_comment_header (header : CommentHeader) : Option (List Nat) :=
  match u32_try_into header.vendor.length, u32_try_into header.comment_list.length,
      encode_comments header.comment_list with
  | some vendor_len, some comment_nbr, some body =>
    some ([3, 118, 111, 114, 98, 105, 115] ++ u32_to_le_bytes vendor_len
      ++ header.vendor ++ u32_to_le_bytes comment_nbr ++ body ++ [1])
  | _, _, _ => none

/-- The comment block byte layout exactly as the specification states it:
magic, vendor length, vendor bytes, pair count, then per pair the length and
bytes of key=value, then the framing byte. -/
def spec_comment_bytes (h : CommentHeader) : List Nat :=
  [3, 118, 111, 114, 98, 105, 115] ++ u32_to_le_bytes h.vendor.length ++ h.vendor
    ++ u32_to_le_bytes h.comment_list.length
    ++ (h.comment_list.map (fun c =>
      u32_to_le_bytes (c.1 ++ [61] ++ c.2).length ++ c.1 ++ [61] ++ c.2)).flatten
    ++ [1]

/-- Modelled from the spec: little endian u32 read used by the external
audio header parser. -/
def read_u32_le : List Nat → Option (Nat × List Nat)
  | b0 :: b1 :: b2 :: b3 :: rest =>
    some (b0 + 256 * b1 + 65536 * b2 + 16777216 * b3, rest)
  | _ => none

/-- Modelled from the spec: take exactly n bytes from the front of a buffer. -/
def take_bytes (n : Nat) (l : List Nat) : Option (List Nat × List Nat) :=
  if n ≤ l.length then some (l.take n, l.drop n) else none

/-- Modelled from the spec: split a key=value entry at the first equals
sign; an entry without one becomes a key with an empty value. -/
def split_comment : List Nat → List Nat × List Nat
  | [] => ([], [])
  | 61 :: rest => ([], rest)
  | b :: rest => (b :: (split_comment rest).1, (split_comment rest).2)

/-- Modelled from the spec: read the given number of length prefixed
key=value entries. -/
def read_comments : Nat → List Nat → Option (List (Str × Str) × List Nat)
  | 0, l => some ([], l)
  | n + 1, l =>
    match read_u32_le l with
    | none => none
    | some (len, l1) =>
      match take_bytes len l1 with
      | none => none
      | some (entry, l2) =>
        match read_comments n l2 with
        | none => none
        | some (rest, l3) =>
          some (((split_comment entry).1, (split_comment entry).2) :: rest, l3)

/-- Modelled from the spec: the external audio header parser (the lewton
read_header_comment function), which src/lib.rs calls but does not define.
It decodes the section 4.2 wire layout: the seven magic bytes, the vendor
length and bytes, the comment count, the length prefixed key=value entries,
and the final framing byte 1. -/
def read_header_comment (data : List Nat) : Option CommentHeader :=
  match data with
  | 3 :: 118 :: 111 :: 114 :: 98 :: 105 :: 115 :: rest =>
    match read_u32_le rest with
    | none => none
    | some (vlen, r1) =>
      match take_bytes vlen r1 with
      | none => none
      | some (vendor, r2) =>
        match read_u32_le r2 with
        | none => none
        | some (cnt, r3) =>
          match read_comments cnt r3 with
          | none => none
          | some (comments, r4) =>
            match r4 with
            | [1] => some { vendor := vendor, comment_list := comments }
            | _ => none
  | _ => none

/-- Boundary information handed to the external packet writer
(the PacketWriteEndInfo type of the ogg crate). -/
inductive PacketWriteEndInfo where
  | NormalPacket
  | EndPage
  | EndStream
  deriving DecidableEq

/-- An Ogg packet as delivered by the external packet reader: payload
bytes, owning stream serial, absolute granule position of its page, and the
two boundary flags. -/
structure Packet where
  data : Str
  stream_serial : Nat
  absgp_page : Nat
  last_in_stream : Bool
  last_in_page : Bool
  deriving DecidableEq

/-- One result of reader.read_packet(): a packet, or a read error.  The end
of the event list models Ok(None), the end of the source. -/
inductive ReadEvent where
  | packet (p : Packet)
  | readError
  deriving DecidableEq

/-- One call to writer.write_packet: payload, serial, boundary information
and granule position, in the order the source passes them. -/
structure WrittenPacket where
  data : Str
  stream_serial : Nat
  inf : PacketWriteEndInfo
  absgp_page : Nat
  deriving DecidableEq

/-- The boundary classification computed by replace_comment_header:
EndStream if the packet is flagged last in its stream, otherwise EndPage if
flagged last in its page, otherwise NormalPacket. -/
def classify (p : Packet) : PacketWriteEndInfo :=
  if p.last_in_stream then PacketWriteEndInfo.EndStream
  else if p.last_in_page then PacketWriteEndInfo.EndPage
  else PacketWriteEndInfo.NormalPacket

/-- The write performed for a packet whose payload is passed through
unchanged. -/
def write_through (p : Packet) : WrittenPacket :=
  { data := p.data, stream_serial := p.stream_serial, inf := classify p,
    absgp_page := p.absgp_page }

/-- The boundary classification exactly as the claim words it: EndOfStream
exactly when the packet is last in both its page and its stream, EndOfPage
exactly when last in its page but not its stream, NormalPacket otherwise. -/
def spec_classify (p : Packet) : PacketWriteEndInfo :=
  if p.last_in_page && p.last_in_stream then PacketWriteEndInfo.EndStream
  else if p.last_in_page && !p.last_in_stream then PacketWriteEndInfo.EndPage
  else PacketWriteEndInfo.NormalPacket

/-- The loop of replace_comment_header: per packet, compute the boundary
information, replace the payload if the header was not yet replaced and the
payload decodes as a comment header, write the packet, and stop after a
packet flagged both last in its stream and last in its page, after a read
error, or at the end of the source. -/
def patch_loop (new_comment_data : List Nat) (events : List ReadEvent)
    (header_done : Bool) : List WrittenPacket :=
  match events with
  | [] => []
  | ReadEvent.readError :: _ => []
  | ReadEvent.packet p :: rest =>
    let step : List Nat × Bool :=
      if header_done then (p.data, header_done)
      else
        match read_header_comment p.data with
        | some _ => (new_comment_data, true)
        | none => (p.data, header_done)
    { data := step.1, stream_serial := p.stream_serial, inf := classify p,
      absgp_page := p.absgp_page }
      :: (if p.last_in_stream && p.last_in_page then []
          else patch_loop new_comment_data rest step.2)

/-- Model of replace_comment_header: encode the new header, then run the
packet loop over the read events.  Option.none models the panic of
make_comment_header on overflow; the written packet list models the bytes
accumulated in the output cursor. -/
def replace_comment_header (events : List ReadEvent) (new_header : CommentHeader) :
    Option (List WrittenPacket) :=
  (make_comment_header new_header).map (fun nd => patch_loop nd events false)

/-- The packets the patch loop actually processes: the events up to and
including the first packet flagged both last in stream and last in page,
stopping early at a read error or at the end of the source. -/
def processed_packets : List ReadEvent → List Packet
  | [] => []
  | ReadEvent.readError :: _ => []
  | ReadEvent.packet p :: rest =>
    p :: (if p.last_in_stream && p.last_in_page then [] else processed_packets rest)

/-- Replacement of the first payload that decodes as a comment header, in
list order, leaving every other payload unchanged; later payloads are not
examined once one replacement happened. -/
def replace_first_comment (nd : List Nat) : List (List Nat) → List (List Nat)
  | [] => []
  | d :: rest =>
    match read_header_comment d with
    | some _ => nd :: rest
    | none => d :: replace_first_comment nd rest

/-- Decidable check that no packet except possibly the last one is flagged
both last in its stream and last in its page. -/
def no_early_term : List Packet → Bool
  | [] => true
  | [_] => true
  | p :: q :: t => !(p.last_in_stream && p.last_in_page) && no_early_term (q :: t)

/-- The serial matching loop of read_comment_header: keep reading packets
until one matches the target serial; none models the panic of
read_packet_expected().unwrap() when the source is exhausted first. -/
def scan_for_serial (stream_serial : Nat) : List Packet → Option Packet
  | [] => none
  | q :: rest =>
    if q.stream_serial = stream_serial then some q
    else scan_for_serial stream_serial rest

/-- Model of read_comment_header: learn the serial from the first packet,
scan the following packets for the first one with the same serial, and
decode its payload.  Option.none models the panics of the three unwraps:
exhaustion before the first packet, exhaustion during the scan, and a
payload that does not decode. -/
def read_comment_header : List Packet → Option CommentHeader
  | [] => none
  | p :: rest =>
    match scan_for_serial p.stream_serial rest with
    | none => none
    | some q => read_header_comment q.data

/-- The empty comment block with vendor Ogg. -/
def header_ogg : CommentHeader := { vendor := [79, 103, 103], comment_list := [] }

/-- The 19 byte encoding of the empty comment block with vendor Ogg. -/
def bytes19 : List Nat :=
  [3, 118, 111, 114, 98, 105, 115, 3, 0, 0, 0, 79, 103, 103, 0, 0, 0, 0, 1]

/-- A comment block whose vendor is too long for the 32 bit length field. -/
def header_overflow : CommentHeader :=
  { vendor := List.replicate 4294967296 79, comment_list := [] }

/-! ## Codec lemmas -/

theorem encode_comments_eq (l : List (Str × Str))
    (he : ∀ c ∈ l, (c.1 ++ [61] ++ c.2).length < 4294967296) :
    encode_comments l = some ((l.map (fun c =>
      u32_to_le_bytes (c.1 ++ [61] ++ c.2).length ++ c.1 ++ [61] ++ c.2)).flatten) := by
  induction l with
  | nil => rfl
  | cons c t ih =>
    have hc := he c (by simp)
    have ht := ih (fun d hd => he d (by simp [hd]))
    have hc' : c.1.length + (c.2.length + 1) < 4294967296 := by
      simpa using hc
    simp [encode_comments, u32_try_into, ht, hc', List.append_assoc]

theorem encode_comments_cons_none (c : Str × Str) (t : List (Str × Str)) :
    encode_comments (c :: t) = none ↔
      4294967296 ≤ (c.1 ++ [61] ++ c.2).length ∨ encode_comments t = none := by
  by_cases hc : (c.1 ++ [61] ++ c.2).length < 4294967296
  · cases ht : encode_comments t with
    | none =>
      have h1 : encode_comments (c :: t) = none := by
        simp only [encode_comments, ht]
        cases u32_try_into (c.1 ++ [61] ++ c.2).length <;> rfl
      simp [h1, ht]
    | some tail =>
      have hc' : c.1.length + (c.2.length + 1) < 4294967296 := by simpa using hc
      have h1 : encode_comments (c :: t) =
          some (u32_to_le_bytes (c.1 ++ [61] ++ c.2).length ++ (c.1 ++ [61] ++ c.2) ++ tail) := by
        simp [encode_comments, u32_try_into, ht, hc']
      simp only [h1, ht]
      constructor
      · intro hcontra; exact absurd hcontra (by simp)
      · rintro (hge | hcontra)
        · exact absurd hge (not_le.mpr hc)
        · exact absurd hcontra (by simp)
  · have hc2 : 4294967296 ≤ c.1.length + (c.2.length + 1) := by simpa using hc
    have h1 : encode_comments (c :: t) = none := by
      have hu : u32_try_into (c.1 ++ [61] ++ c.2).length = none := by
        simp only [u32_try_into, ite_eq_right_iff]
        intro hcontra
        exact absurd hcontra hc
      simp only [encode_comments, hu]
    simp [h1]
    omega

theorem encode_comments_none_iff (l : List (Str × Str)) :
    encode_comments l = none ↔ ∃ c ∈ l, 4294967296 ≤ (c.1 ++ [61] ++ c.2).length := by
  induction l with
  | nil => simp [encode_comments]
  | cons c t ih =>
    rw [encode_comments_cons_none, ih]
    simp [List.mem_cons, or_comm]

theorem u32_try_into_none_iff (n : Nat) : u32_try_into n = none ↔ 4294967296 ≤ n := by
  unfold u32_try_into
  split
  · rename_i hlt
    simp
    omega
  · rename_i hlt
    simp
    omega

theorem u32_try_into_some (n m : Nat) (h : u32_try_into n = some m) :
    m = n ∧ n < 4294967296 := by
  unfold u32_try_into at h
  split at h
  · injection h with h1
    exact ⟨h1.symm, by assumption⟩
  · cases h

theorem make_comment_header_eq (h : CommentHeader)
    (hv : h.vendor.length < 4294967296)
    (hc : h.comment_list.length < 4294967296)
    (he : ∀ c ∈ h.comment_list, (c.1 ++ [61] ++ c.2).length < 4294967296) :
    make_comment_header h = some (spec_comment_bytes h) := by
  have hb := encode_comments_eq h.comment_list he
  simp [make_comment_header, u32_try_into, hv, hc, hb, spec_comment_bytes,
    List.append_assoc]

/-- Claim C3: for every comment block whose vendor length, pair count and per
entry byte lengths fit in 32 bits, make_comment_header emits exactly the
seven magic bytes 3 v o r b i s, the vendor byte length as a little endian
u32, the vendor bytes, the pair count as a little endian u32, then for each
pair in order the byte length of key=value as a little endian u32 followed
by those bytes, then the single framing byte 1; in particular the empty
block with vendor Ogg and no tags encodes to exactly the 19 bytes
03 76 6F 72 62 69 73 03 00 00 00 4F 67 67 00 00 00 00 01. -/
theorem C3_make_comment_header_layout (h : CommentHeader)
    (hv : h.vendor.length < 4294967296)
    (hc : h.comment_list.length < 4294967296)
    (he : ∀ c ∈ h.comment_list, (c.1 ++ [61] ++ c.2).length < 4294967296) :
    make_comment_header h = some (spec_comment_bytes h) ∧
      make_comment_header header_ogg = some bytes19 :=
  ⟨make_comment_header_eq h hv hc he, by decide⟩

/-- Witness for claim C3, at the empty block with vendor Ogg. -/
theorem C3_make_comment_header_layout_witness :
    make_comment_header header_ogg = some (spec_comment_bytes header_ogg) ∧
      make_comment_header header_ogg = some bytes19 :=
  C3_make_comment_header_layout header_ogg (by decide) (by decide) (by decide)

theorem make_comment_header_none_iff (h : CommentHeader) :
    make_comment_header h = none ↔
      4294967296 ≤ h.vendor.length ∨ 4294967296 ≤ h.comment_list.length ∨
        ∃ c ∈ h.comment_list, 4294967296 ≤ (c.1 ++ [61] ++ c.2).length := by
  cases h1 : u32_try_into h.vendor.length with
  | none =>
    have hge := (u32_try_into_none_iff _).mp h1
    have hm : make_comment_header h = none := by
      simp only [make_comment_header, h1]
    rw [hm]
    exact iff_of_true rfl (Or.inl hge)
  | some v1 =>
    have hvlt := (u32_try_into_some _ _ h1).2
    cases h2 : u32_try_into h.comment_list.length with
    | none =>
      have hge := (u32_try_into_none_iff _).mp h2
      have hm : make_comment_header h = none := by
        simp only [make_comment_header, h1, h2]
      rw [hm]
      exact iff_of_true rfl (Or.inr (Or.inl hge))
    | some v2 =>
      have hclt := (u32_try_into_some _ _ h2).2
      cases h3 : encode_comments h.comment_list with
      | none =>
        have hex := (encode_comments_none_iff _).mp h3
        have hm : make_comment_header h = none := by
          simp only [make_comment_header, h1, h2, h3]
        rw [hm]
        exact iff_of_true rfl (Or.inr (Or.inr hex))
      | some body =>
        have hm : make_comment_header h ≠ none := by
          simp only [make_comment_header, h1, h2, h3]
          simp
        constructor
        · intro h0
          exact absurd h0 hm
        · rintro (hge | hge | hex)
          · exact absurd hge (not_le.mpr hvlt)
          · exact absurd hge (not_le.mpr hclt)
          · have hn := (encode_comments_none_iff h.comment_list).mpr hex
            rw [hn] at h3
            exact absurd h3 (by simp)

/-- Claim C4 counterexample: the claim states that an oversized length field
is surfaced to the caller as an Overflow error value and that the process is
not aborted.  The Rust function returns a plain byte vector and converts
lengths with try_into().unwrap(), which panics on overflow; the panic is
modelled as Option.none.  On a block whose vendor holds 2 to the 32 bytes
the encoder therefore aborts with no value at all, and no Overflow error
value exists anywhere in its interface. -/
theorem C4_counterexample : make_comment_header header_overflow = none := by
  rw [make_comment_header_none_iff]
  left
  have hv : header_overflow.vendor = List.replicate 4294967296 79 := rfl
  rw [hv, List.length_replicate]

/-- Claim C4 amended: make_comment_header aborts by panic (modelled as
Option.none) exactly when the vendor byte length, the number of comment
pairs, or the byte length of some encoded key=value entry exceeds the
unsigned 32 bit range; it never silently truncates a field, but the
overflow surfaces as a panic of the unwrapped try_into conversion, not as
an error value returned to the caller. -/
theorem C4_overflow_panics (h : CommentHeader) :
    make_comment_header h = none ↔
      4294967296 ≤ h.vendor.length ∨ 4294967296 ≤ h.comment_list.length ∨
        ∃ c ∈ h.comment_list, 4294967296 ≤ (c.1 ++ [61] ++ c.2).length :=
  make_comment_header_none_iff h

/-! ## Comment model lemmas -/

theorem mem_dedup_adj (x : Str) : ∀ (l : List Str), (x ∈ dedup_adj l ↔ x ∈ l)
  | [] => by simp [dedup_adj]
  | [a] => by simp [dedup_adj]
  | a :: b :: t => by
    by_cases hab : a = b
    · subst hab
      simp [dedup_adj, mem_dedup_adj x (a :: t)]
    · simp [dedup_adj, hab, mem_dedup_adj x (b :: t)]

theorem dedup_adj_sorted :
    ∀ (l : List Str), List.Sorted (fun a b : Str => a ≤ b) l →
      List.Sorted (fun a b : Str => a < b) (dedup_adj l)
  | [] => by simp [dedup_adj]
  | [a] => by simp [dedup_adj]
  | a :: b :: t => fun hs => by
    have hab_le : a ≤ b := (List.sorted_cons.mp hs).1 b (by simp)
    have hs' : List.Sorted (fun a b : Str => a ≤ b) (b :: t) :=
      (List.sorted_cons.mp hs).2
    by_cases hab : a = b
    · rw [show dedup_adj (a :: b :: t) = dedup_adj (b :: t) by simp [dedup_adj, hab]]
      exact dedup_adj_sorted (b :: t) hs'
    · rw [show dedup_adj (a :: b :: t) = a :: dedup_adj (b :: t) by simp [dedup_adj, hab]]
      rw [List.sorted_cons]
      refine ⟨?_, dedup_adj_sorted (b :: t) hs'⟩
      intro x hx
      have hxbt : x ∈ b :: t := (mem_dedup_adj x (b :: t)).mp hx
      rcases List.mem_cons.mp hxbt with rfl | hxt
      · exact lt_of_le_of_ne hab_le hab
      · exact lt_of_lt_of_le (lt_of_le_of_ne hab_le hab) ((List.sorted_cons.mp hs').1 x hxt)

theorem to_lowercase_byte_idem (b : Nat) :
    to_lowercase_byte (to_lowercase_byte b) = to_lowercase_byte b := by
  by_cases hb : 65 ≤ b ∧ b ≤ 90
  · have h1 : to_lowercase_byte b = b + 32 := by rw [to_lowercase_byte, if_pos hb]
    rw [h1, to_lowercase_byte, if_neg (by omega)]
  · have h1 : to_lowercase_byte b = b := by rw [to_lowercase_byte, if_neg hb]
    rw [h1]
    exact h1

theorem to_lowercase_idem (s : Str) : to_lowercase (to_lowercase s) = to_lowercase s := by
  unfold to_lowercase
  rw [List.map_map]
  simp [Function.comp_def, to_lowercase_byte_idem]

/-- Claim C7: for every comment block, regardless of the case or order in
which tags were inserted, get_tag_names returns exactly the keys present,
lowercased, sorted strictly ascending, with duplicates removed: the result
is sorted under the strict lexicographic order, has no duplicates, and a
string is a member exactly when it is the lowercasing of some stored key. -/
theorem C7_get_tag_names_sorted_dedup (h : CommentHeader) :
    List.Sorted (fun a b : Str => a < b) h.get_tag_names ∧
      h.get_tag_names.Nodup ∧
      ∀ s : Str, s ∈ h.get_tag_names ↔ ∃ c ∈ h.comment_list, to_lowercase c.1 = s := by
  have hsorted : List.Sorted (fun a b : Str => a ≤ b)
      (List.insertionSort (fun a b : Str => a ≤ b)
        (h.comment_list.map (fun c => to_lowercase c.1))) :=
    List.sorted_insertionSort _ _
  have hlt := dedup_adj_sorted _ hsorted
  have hmem : ∀ s : Str, s ∈ h.get_tag_names ↔ ∃ c ∈ h.comment_list, to_lowercase c.1 = s := by
    intro s
    unfold CommentHeader.get_tag_names
    rw [mem_dedup_adj, (List.perm_insertionSort _ _).mem_iff, List.mem_map]
  exact ⟨hlt, hlt.nodup, hmem⟩

/-- Claim C8: starting from an empty block, adding Artist=A and then
artist=B gives get_tag_multi ARTIST = [A, B] in insertion order; after
clear_tag Artist, get_tag_multi artist is empty and get_tag_names no longer
contains artist — lookup and removal match keys case insensitively.  The
strings are spelled as their ASCII byte lists. -/
theorem C8_case_insensitive_ops :
    (((CommentHeader.new.add_tag_single [65, 114, 116, 105, 115, 116] [65]).add_tag_single
        [97, 114, 116, 105, 115, 116] [66]).get_tag_multi [65, 82, 84, 73, 83, 84])
      = [[65], [66]] ∧
    ((((CommentHeader.new.add_tag_single [65, 114, 116, 105, 115, 116] [65]).add_tag_single
        [97, 114, 116, 105, 115, 116] [66]).clear_tag
        [65, 114, 116, 105, 115, 116]).get_tag_multi [97, 114, 116, 105, 115, 116]) = [] ∧
    [97, 114, 116, 105, 115, 116] ∉
      ((((CommentHeader.new.add_tag_single [65, 114, 116, 105, 115, 116] [65]).add_tag_single
        [97, 114, 116, 105, 115, 116] [66]).clear_tag
        [65, 114, 116, 105, 115, 116]).get_tag_names) := by
  decide

/-- Claim C9 counterexample: the claim states that every construction path,
including the from constructor, leaves all in memory keys lowercase; but
from stores the given pair list exactly as supplied, so a block built from
the single pair with key A (byte 65) keeps the uppercase key. -/
theorem C9_counterexample :
    all_keys_lowercase (CommentHeader.from' [] [([65], [])]) = false := by decide

/-- Claim C9 amended: new, add_tag_single and add_tag_multi leave every in
memory key lowercase — insertion lowercases the added keys, and existing
lowercase keys are preserved — but the from constructor stores the given
pairs unchanged, so its keys are lowercase only when the caller already
supplies them lowercase. -/
theorem C9_lowercase_keys :
    all_keys_lowercase CommentHeader.new = true ∧
    (∀ (h : CommentHeader) (tag value : Str), all_keys_lowercase h = true →
      all_keys_lowercase (h.add_tag_single tag value) = true) ∧
    (∀ (h : CommentHeader) (tag : Str) (values : List Str), all_keys_lowercase h = true →
      all_keys_lowercase (h.add_tag_multi tag values) = true) ∧
    (∀ (vendor : Str) (pairs : List (Str × Str)),
      (CommentHeader.from' vendor pairs).comment_list = pairs) := by
  refine ⟨by decide, ?_, ?_, fun vendor pairs => rfl⟩
  · intro h tag value hall
    simp only [all_keys_lowercase, CommentHeader.add_tag_single, List.all_append,
      List.all_cons, List.all_nil, Bool.and_true, Bool.and_eq_true] at *
    exact ⟨hall, by simp [to_lowercase_idem]⟩
  · intro h tag values hall
    simp only [all_keys_lowercase, List.all_eq_true, CommentHeader.add_tag_multi] at *
    intro c hc
    rcases List.mem_append.mp hc with hcl | hcm
    · exact hall c hcl
    · rcases List.mem_map.mp hcm with ⟨v, _, rfl⟩
      simp [to_lowercase_idem]

/-- Witness for the amended claim C9: a block built by new, add_tag_multi
and add_tag_single has only lowercase keys. -/
theorem C9_lowercase_keys_witness :
    all_keys_lowercase ((CommentHeader.new.add_tag_multi [65, 82, 84]
      [[67], [68]]).add_tag_single [84, 73, 84] [69]) = true :=
  C9_lowercase_keys.2.1 _ _ _
    (C9_lowercase_keys.2.2.1 _ _ _ C9_lowercase_keys.1)

/-! ## Stream patcher lemmas -/

theorem no_early_term_cons (p : Packet) (l : List Packet) (hl : l ≠ []) :
    no_early_term (p :: l) = (!(p.last_in_stream && p.last_in_page) && no_early_term l) := by
  cases l with
  | nil => exact absurd rfl hl
  | cons q t => rfl

theorem patch_loop_done_data : ∀ (events : List ReadEvent) (nd : List Nat),
    (patch_loop nd events true).map WrittenPacket.data
      = (processed_packets events).map Packet.data
  | [], _ => rfl
  | ReadEvent.readError :: _, _ => rfl
  | ReadEvent.packet p :: rest, nd => by
    cases ht : p.last_in_stream && p.last_in_page <;>
      simp [patch_loop, processed_packets, ht, patch_loop_done_data rest nd]

theorem patch_loop_data : ∀ (events : List ReadEvent) (nd : List Nat),
    (patch_loop nd events false).map WrittenPacket.data
      = replace_first_comment nd ((processed_packets events).map Packet.data)
  | [], _ => rfl
  | ReadEvent.readError :: _, _ => rfl
  | ReadEvent.packet p :: rest, nd => by
    cases hc : read_header_comment p.data with
    | some hdr =>
      cases ht : p.last_in_stream && p.last_in_page <;>
        simp [patch_loop, processed_packets, replace_first_comment, hc, ht,
          patch_loop_done_data rest nd]
    | none =>
      cases ht : p.last_in_stream && p.last_in_page <;>
        simp [patch_loop, processed_packets, replace_first_comment, hc, ht,
          patch_loop_data rest nd]

theorem patch_loop_inf : ∀ (events : List ReadEvent) (nd : List Nat) (b : Bool),
    (patch_loop nd events b).map WrittenPacket.inf
      = (processed_packets events).map classify
  | [], _, _ => rfl
  | ReadEvent.readError :: _, _, _ => rfl
  | ReadEvent.packet p :: rest, nd, b => by
    cases hb : b <;> cases hc : read_header_comment p.data <;>
      cases ht : p.last_in_stream && p.last_in_page <;>
        simp [patch_loop, processed_packets, ht, hc, patch_loop_inf rest nd]

theorem patch_loop_done_full : ∀ (suf : List Packet) (nd : List Nat),
    no_early_term suf = true →
      patch_loop nd (suf.map ReadEvent.packet) true = suf.map write_through
  | [], _, _ => rfl
  | p :: t, nd, hterm => by
    cases ht : p.last_in_stream && p.last_in_page with
    | true =>
      cases t with
      | nil => simp [patch_loop, write_through, ht]
      | cons q t2 =>
        rw [no_early_term_cons p (q :: t2) (by simp), ht] at hterm
        simp at hterm
    | false =>
      have hrest : no_early_term t = true := by
        cases t with
        | nil => rfl
        | cons q t2 =>
          rw [no_early_term_cons p (q :: t2) (by simp), Bool.and_eq_true] at hterm
          exact hterm.2
      simp [patch_loop, write_through, ht, patch_loop_done_full t nd hrest]

theorem patch_loop_replace :
    ∀ (pre : List Packet) (pj : Packet) (suf : List Packet) (nd : List Nat),
      (∀ q ∈ pre, read_header_comment q.data = none) →
      (read_header_comment pj.data).isSome = true →
      no_early_term (pre ++ pj :: suf) = true →
      patch_loop nd ((pre ++ pj :: suf).map ReadEvent.packet) false
        = pre.map write_through
          ++ { data := nd, stream_serial := pj.stream_serial, inf := classify pj,
               absgp_page := pj.absgp_page } :: suf.map write_through
  | [], pj, suf, nd => fun _ hpj hterm => by
    obtain ⟨hdr, hhd⟩ := Option.isSome_iff_exists.mp hpj
    cases ht : pj.last_in_stream && pj.last_in_page with
    | true =>
      cases suf with
      | nil => simp [patch_loop, hhd, ht]
      | cons q t =>
        rw [List.nil_append, no_early_term_cons pj (q :: t) (by simp), ht] at hterm
        simp at hterm
    | false =>
      have hrest : no_early_term suf = true := by
        cases suf with
        | nil => rfl
        | cons q t =>
          rw [List.nil_append, no_early_term_cons pj (q :: t) (by simp),
            Bool.and_eq_true] at hterm
          exact hterm.2
      simp [patch_loop, hhd, ht, patch_loop_done_full suf nd hrest]
  | r :: pre2, pj, suf, nd => fun hpre hpj hterm => by
    have hr : read_header_comment r.data = none := hpre r (by simp)
    have h1 := hterm
    rw [List.cons_append, no_early_term_cons r (pre2 ++ pj :: suf) (by simp),
      Bool.and_eq_true, Bool.not_eq_true'] at h1
    obtain ⟨hrt, hrest⟩ := h1
    have ih := patch_loop_replace pre2 pj suf nd
      (fun q hq => hpre q (by simp [hq])) hpj hrest
    rw [List.map_append, List.map_cons] at ih
    simp [patch_loop, hr, hrt, write_through, ih, List.cons_append]

theorem exists_first_decodable :
    ∀ (ps : List Packet), (∃ p ∈ ps, (read_header_comment p.data).isSome = true) →
      ∃ pre pj suf, ps = pre ++ pj :: suf ∧
        (∀ q ∈ pre, read_header_comment q.data = none) ∧
        (read_header_comment pj.data).isSome = true
  | [], h => absurd h (by simp)
  | p :: t, h => by
    cases hc : read_header_comment p.data with
    | some hdr => exact ⟨[], p, t, rfl, by simp, by simp [hc]⟩
    | none =>
      have ht : ∃ q ∈ t, (read_header_comment q.data).isSome = true := by
        obtain ⟨q, hq, hqs⟩ := h
        rcases List.mem_cons.mp hq with rfl | hqt
        · rw [hc] at hqs
          exact absurd hqs (by simp)
        · exact ⟨q, hqt, hqs⟩
      obtain ⟨pre, pj, suf, heq, hpre, hpj⟩ := exists_first_decodable t ht
      refine ⟨p :: pre, pj, suf, by rw [heq, List.cons_append], ?_, hpj⟩
      intro q hq
      rcases List.mem_cons.mp hq with rfl | hqp
      · exact hc
      · exact hpre q hqp

theorem patch_loop_error_tail :
    ∀ (ps : List Packet) (nd : List Nat) (b : Bool) (rest : List ReadEvent),
      patch_loop nd (ps.map ReadEvent.packet ++ ReadEvent.readError :: rest) b
        = patch_loop nd (ps.map ReadEvent.packet) b
  | [], nd, b, rest => by simp [patch_loop]
  | p :: t, nd, b, rest => by
    cases hb : b <;> cases hc : read_header_comment p.data <;>
      cases ht : p.last_in_stream && p.last_in_page <;>
        simp [patch_loop, ht, hc, patch_loop_error_tail t nd]

theorem scan_for_serial_not_found : ∀ (s : Nat) (l : List Packet),
    (∀ q ∈ l, q.stream_serial ≠ s) → scan_for_serial s l = none
  | _, [], _ => rfl
  | s, q :: t, h => by
    have hq : q.stream_serial ≠ s := h q (by simp)
    simp [scan_for_serial, hq,
      scan_for_serial_not_found s t (fun r hr => h r (by simp [hr]))]

theorem scan_for_serial_found :
    ∀ (s : Nat) (pre : List Packet) (q : Packet) (suf : List Packet),
      (∀ r ∈ pre, r.stream_serial ≠ s) → q.stream_serial = s →
        scan_for_serial s (pre ++ q :: suf) = some q
  | s, [], q, suf, _, hq => by simp [scan_for_serial, hq]
  | s, r :: pre', q, suf, hpre, hq => by
    have hr : r.stream_serial ≠ s := hpre r (by simp)
    simp [scan_for_serial, hr,
      scan_for_serial_found s pre' q suf (fun x hx => hpre x (by simp [hx])) hq]

/-- Claim C1 counterexample: the claim quantifies over every input container
with a decodable comment packet, but the loop stops after the first packet
flagged both last in its page and last in its stream.  In a three packet
container whose second packet carries both flags (a multiplexed container in
which one logical stream ends before another), the third packet is dropped:
the output holds two packets, not three. -/
theorem C1_counterexample :
    replace_comment_header
        [ReadEvent.packet (⟨bytes19, 7, 0, false, false⟩ : Packet),
         ReadEvent.packet (⟨[9], 7, 4, true, true⟩ : Packet),
         ReadEvent.packet (⟨[8], 8, 2, false, false⟩ : Packet)] header_ogg
      = some [⟨bytes19, 7, PacketWriteEndInfo.NormalPacket, 0⟩,
              ⟨[9], 7, PacketWriteEndInfo.EndStream, 4⟩] := by decide

/-- Claim C1 amended: for every input container of N packets in which no
packet except possibly the last is flagged both last in its page and last
in its stream, which contains at least one packet whose payload decodes as
a comment block, and whose new comment block encodes successfully,
replace_comment_header produces exactly N packets, in the same order, each
with the same stream serial, the same boundary class and the same granule
position as its source packet, and byte identical payloads — except that
exactly one packet, the first whose payload decodes as a comment block, has
its payload replaced by the encoding of the caller supplied block. -/
theorem C1_patch_preserves_container (ps : List Packet) (new_header : CommentHeader)
    (nd : List Nat) (henc : make_comment_header new_header = some nd)
    (hterm : no_early_term ps = true)
    (hex : ∃ p ∈ ps, (read_header_comment p.data).isSome = true) :
    ∃ pre pj suf, ps = pre ++ pj :: suf ∧
      (∀ q ∈ pre, read_header_comment q.data = none) ∧
      (read_header_comment pj.data).isSome = true ∧
      replace_comment_header (ps.map ReadEvent.packet) new_header
        = some (pre.map write_through
            ++ { data := nd, stream_serial := pj.stream_serial, inf := classify pj,
                 absgp_page := pj.absgp_page } :: suf.map write_through) ∧
      (pre.map write_through
        ++ { data := nd, stream_serial := pj.stream_serial, inf := classify pj,
             absgp_page := pj.absgp_page } :: suf.map write_through).length = ps.length := by
  obtain ⟨pre, pj, suf, heq, hpre, hpj⟩ := exists_first_decodable ps hex
  subst heq
  refine ⟨pre, pj, suf, rfl, hpre, hpj, ?_, ?_⟩
  · have hp := patch_loop_replace pre pj suf nd hpre hpj hterm
    rw [List.map_append, List.map_cons] at hp
    simp [replace_comment_header, henc, hp]
  · simp [List.length_append, List.length_map]

/-- Witness for the amended claim C1, at a one packet container holding a
valid comment packet. -/
theorem C1_patch_preserves_container_witness :
    ∃ pre pj suf, [(⟨bytes19, 7, 5, true, true⟩ : Packet)] = pre ++ pj :: suf ∧
      (∀ q ∈ pre, read_header_comment q.data = none) ∧
      (read_header_comment pj.data).isSome = true ∧
      replace_comment_header
          ([(⟨bytes19, 7, 5, true, true⟩ : Packet)].map ReadEvent.packet) header_ogg
        = some (pre.map write_through
            ++ { data := bytes19, stream_serial := pj.stream_serial, inf := classify pj,
                 absgp_page := pj.absgp_page } :: suf.map write_through) ∧
      (pre.map write_through
        ++ { data := bytes19, stream_serial := pj.stream_serial, inf := classify pj,
             absgp_page := pj.absgp_page } :: suf.map write_through).length
        = [(⟨bytes19, 7, 5, true, true⟩ : Packet)].length :=
  C1_patch_preserves_container [(⟨bytes19, 7, 5, true, true⟩ : Packet)] header_ogg bytes19
    (by decide) (by decide) (by decide)

/-- Claim C2 counterexample: the claim states the patcher assigns
EndOfStream exactly when the packet is last in both its page and its
stream; the code checks the last in stream flag first, so a packet flagged
last in stream but not last in page is emitted as EndStream, while the
classification the claim words (spec_classify) gives NormalPacket. -/
theorem C2_counterexample :
    replace_comment_header [ReadEvent.packet (⟨[9], 7, 5, true, false⟩ : Packet)] header_ogg
        = some [⟨[9], 7, PacketWriteEndInfo.EndStream, 5⟩] ∧
      spec_classify (⟨[9], 7, 5, true, false⟩ : Packet) = PacketWriteEndInfo.NormalPacket ∧
      PacketWriteEndInfo.EndStream ≠ PacketWriteEndInfo.NormalPacket := by decide

/-- Claim C2 amended: every output packet carries the boundary class the
code computes from the packet flags — EndStream exactly when the last in
stream flag is set (even when the last in page flag is clear), EndPage
exactly when last in page and not last in stream, NormalPacket otherwise —
and the classes of the output are exactly the classes of the processed
input packets, independent of which payload (if any) was replaced.  For
packets whose flags satisfy last in stream implies last in page, this
coincides with the classification the claim states. -/
theorem C2_boundary_class (events : List ReadEvent) (new_header : CommentHeader)
    (nd : List Nat) (henc : make_comment_header new_header = some nd) :
    (∃ out, replace_comment_header events new_header = some out ∧
      out.map WrittenPacket.inf = (processed_packets events).map classify) ∧
    (∀ p : Packet,
      (classify p = PacketWriteEndInfo.EndStream ↔ p.last_in_stream = true) ∧
      (classify p = PacketWriteEndInfo.EndPage ↔
        (p.last_in_page = true ∧ p.last_in_stream = false))) ∧
    (∀ p : Packet, (p.last_in_stream = true → p.last_in_page = true) →
      classify p = spec_classify p) := by
  refine ⟨⟨patch_loop nd events false, by simp [replace_comment_header, henc],
      patch_loop_inf events nd false⟩, ?_, ?_⟩
  · intro p
    cases h1 : p.last_in_stream <;> cases h2 : p.last_in_page <;>
      simp [classify, h1, h2]
  · intro p hp
    cases h1 : p.last_in_stream
    · cases h2 : p.last_in_page <;> simp [classify, spec_classify, h1, h2]
    · have h2 := hp h1
      simp [classify, spec_classify, h1, h2]

/-- Witness for the amended claim C2, at a one packet container. -/
theorem C2_boundary_class_witness :
    (∃ out, replace_comment_header [ReadEvent.packet (⟨[9], 7, 5, false, true⟩ : Packet)]
        header_ogg = some out ∧
      out.map WrittenPacket.inf
        = (processed_packets [ReadEvent.packet (⟨[9], 7, 5, false, true⟩ : Packet)]).map classify) ∧
    (∀ p : Packet,
      (classify p = PacketWriteEndInfo.EndStream ↔ p.last_in_stream = true) ∧
      (classify p = PacketWriteEndInfo.EndPage ↔
        (p.last_in_page = true ∧ p.last_in_stream = false))) ∧
    (∀ p : Packet, (p.last_in_stream = true → p.last_in_page = true) →
      classify p = spec_classify p) :=
  C2_boundary_class [ReadEvent.packet (⟨[9], 7, 5, false, true⟩ : Packet)] header_ogg bytes19
    (by decide)

/-- Claim C6 counterexample: the claim states that on a mid stream read
error the partially written output is surfaced as an explicit incomplete
condition rather than returned as an ordinary success value.  The code
prints the error and breaks, then returns the output cursor normally: a
source that fails after one packet produces exactly the same ordinary
result as a source that ends cleanly after that packet, so nothing marks
the output as incomplete. -/
theorem C6_counterexample :
    replace_comment_header
        [ReadEvent.packet (⟨[9], 7, 5, false, false⟩ : Packet), ReadEvent.readError]
        header_ogg
      = replace_comment_header [ReadEvent.packet (⟨[9], 7, 5, false, false⟩ : Packet)]
          header_ogg ∧
    replace_comment_header
        [ReadEvent.packet (⟨[9], 7, 5, false, false⟩ : Packet), ReadEvent.readError]
        header_ogg
      = some [⟨[9], 7, PacketWriteEndInfo.NormalPacket, 5⟩] := by decide

/-- Claim C6 amended: if the packet reader reports a read error, processing
stops immediately after the packets already written, and the partially
written output is returned as an ordinary success value — it equals exactly
the output for a source that ends cleanly at the same point, so no
incomplete condition reaches the caller; the error is only printed. -/
theorem C6_read_error_partial_output (ps : List Packet) (new_header : CommentHeader)
    (rest : List ReadEvent) :
    replace_comment_header (ps.map ReadEvent.packet ++ ReadEvent.readError :: rest)
        new_header
      = replace_comment_header (ps.map ReadEvent.packet) new_header := by
  unfold replace_comment_header
  cases make_comment_header new_header with
  | none => rfl
  | some nd => simp [patch_loop_error_tail ps nd]

/-- Claim C10: replace_comment_header selects the packet to replace solely
by whether its payload decodes as a comment header, ignoring stream serial
numbers entirely: among the processed packets, the first (in container
order, from any logical stream) whose payload decodes gets the freshly
encoded payload, and once one replacement happened no later payload is
decoded or replaced, so the output payloads are the processed payloads with
at most that one payload changed. -/
theorem C10_first_decodable_replaced (events : List ReadEvent)
    (new_header : CommentHeader) (nd : List Nat)
    (henc : make_comment_header new_header = some nd) :
    ∃ out, replace_comment_header events new_header = some out ∧
      out.map WrittenPacket.data
        = replace_first_comment nd ((processed_packets events).map Packet.data) :=
  ⟨patch_loop nd events false, by simp [replace_comment_header, henc],
    patch_loop_data events nd⟩

/-- Witness for claim C10, at a two packet container whose streams carry
different serial numbers and whose second packet is the comment packet. -/
theorem C10_first_decodable_replaced_witness :
    ∃ out, replace_comment_header
        [ReadEvent.packet (⟨[9], 1, 0, false, false⟩ : Packet),
         ReadEvent.packet (⟨bytes19, 2, 0, false, false⟩ : Packet)] header_ogg
      = some out ∧
      out.map WrittenPacket.data
        = replace_first_comment bytes19
            ((processed_packets
              [ReadEvent.packet (⟨[9], 1, 0, false, false⟩ : Packet),
               ReadEvent.packet (⟨bytes19, 2, 0, false, false⟩ : Packet)]).map Packet.data) :=
  C10_first_decodable_replaced
    [ReadEvent.packet (⟨[9], 1, 0, false, false⟩ : Packet),
     ReadEvent.packet (⟨bytes19, 2, 0, false, false⟩ : Packet)] header_ogg bytes19
    (by decide)

/-- Claim C5 counterexample: the claim states read_comment_header returns a
Result carrying distinct NotFound and MalformedPacket error values.  The
Rust function returns a bare CommentHeader and unwraps every failure: an
exhausted source, a source with no second packet of the matching serial,
and a malformed matching packet all panic and produce no value (modelled
none), so the failure cases are indistinguishable and no error value is
ever returned. -/
theorem C5_counterexample :
    read_comment_header [] = none ∧
    read_comment_header [(⟨[], 5, 0, false, false⟩ : Packet)] = none ∧
    read_comment_header
      [(⟨[], 5, 0, false, false⟩ : Packet), (⟨[9], 5, 0, false, false⟩ : Packet)] = none := by
  decide

/-- Claim C5 amended: read_comment_header learns the target serial from the
first packet and decodes the first following packet with the same serial.
With no packet at all, or with no following packet of the matching serial,
it panics (modelled none) — the NotFound situation; when the first matching
packet exists, the result is exactly the decode of its payload, so a
malformed matching packet also panics instead of returning a
MalformedPacket error value.  No inspectable error value distinguishes the
failure modes. -/
theorem C5_locator_failures :
    read_comment_header [] = none ∧
    (∀ (p : Packet) (rest : List Packet),
      (∀ q ∈ rest, q.stream_serial ≠ p.stream_serial) →
        read_comment_header (p :: rest) = none) ∧
    (∀ (p : Packet) (pre : List Packet) (q : Packet) (suf : List Packet),
      (∀ r ∈ pre, r.stream_serial ≠ p.stream_serial) →
        q.stream_serial = p.stream_serial →
        read_comment_header (p :: (pre ++ q :: suf)) = read_header_comment q.data) := by
  refine ⟨rfl, ?_, ?_⟩
  · intro p rest h
    simp [read_comment_header, scan_for_serial_not_found p.stream_serial rest h]
  · intro p pre q suf hpre hq
    simp [read_comment_header, scan_for_serial_found p.stream_serial pre q suf hpre hq]

/-- Witness for the amended claim C5: the second packet of the matching
serial is decoded, here successfully. -/
theorem C5_locator_failures_witness :
    read_comment_header
        [(⟨[], 5, 0, false, false⟩ : Packet), (⟨bytes19, 5, 0, false, false⟩ : Packet)]
      = read_header_comment (⟨bytes19, 5, 0, false, false⟩ : Packet).data := by
  have h := C5_locator_failures.2.2 (⟨[], 5, 0, false, false⟩ : Packet) []
    (⟨bytes19, 5, 0, false, false⟩ : Packet) [] (by simp) rfl
  simpa using h
